import Mathlib

/-!
# Verification of the yakf unscented Kalman filter core

The repository ships a generic UKF estimation engine: a state abstraction
(vector + timestamp), two sigma-point sampling strategies (minimal-skew
simplex and symmetric distribution), and a predict/update engine driven by
`feed_and_update`.  The crate's core modules (`filters/state.rs`,
`filters/sigma_points.rs`, `filters/ukf.rs`, `errors.rs`) are declared by
`src/lib.rs` but their sources are not part of this tree, so the model below
is built from the specification's description of those modules; scalars are
exact rationals standing in for the crate's `f64`, and the external
matrix-decomposition capabilities (matrix square root, decomposition-based
solve) that the spec assigns to the linear-algebra collaborator are modelled
as contract-carrying function records.
-/

/-- An n-dimensional real vector (spec §3), over exact rationals. -/
abbrev Vec (n : ℕ) := Fin n → ℚ

/-- An r×c real matrix, over exact rationals. -/
abbrev Mat (r c : ℕ) := Fin r → Fin c → ℚ

/-- Outer product v·wᵗ of two vectors. -/
def outerProd {r c : ℕ} (v : Vec r) (w : Vec c) : Mat r c := fun i j => v i * w j

/-- Matrix product. -/
def matMul {r s c : ℕ} (A : Mat r s) (B : Mat s c) : Mat r c :=
  fun i k => ∑ j, A i j * B j k

/-- Matrix–vector product. -/
def matVecMul {r c : ℕ} (A : Mat r c) (v : Vec c) : Vec r :=
  fun i => ∑ j, A i j * v j

/-- Matrix transpose. -/
def matTrans {r c : ℕ} (A : Mat r c) : Mat c r := fun j i => A i j

/-- Largest k ≤ m with k·k ≤ m (support for exact rational square roots). -/
def isqrt (m : ℕ) : ℕ :=
  (List.range (m + 1)).foldl (fun acc k => if k * k ≤ m then k else acc) 0

/-- Exact square root on ℚ: `some r` with `r·r = q` when q is a perfect
rational square, `none` otherwise. -/
def ratSqrt (q : ℚ) : Option ℚ :=
  if q < 0 then none
  else if isqrt q.num.toNat * isqrt q.num.toNat = q.num.toNat ∧
          isqrt q.den * isqrt q.den = q.den
  then some ((isqrt q.num.toNat : ℚ) / (isqrt q.den : ℚ))
  else none

/-- Exact 1/√q on ℚ; fails when q is not a positive perfect rational square. -/
def invSqrt (q : ℚ) : Option ℚ :=
  if 0 < q then (ratSqrt q).map (fun r => 1 / r) else none

/-- Modelled from the spec: the error taxonomy of the missing `errors.rs`
(§4.4): invalid sampling parameter (construction-time), numerical failure
(singular / non-positive-definite decomposition input), dimension mismatch
(defense-in-depth; never produced here because sizes are static). -/
inductive YakfError where
  | InvalidSamplingParameter
  | NumericalFailure
  | DimensionMismatch
deriving DecidableEq

/-- Modelled from the spec: a state as held by the missing `state.rs`
(§3, §4.1): an n-dimensional vector plus a timestamp (seconds, exact). -/
structure KState (n : ℕ) where
  x : Vec n
  t : ℚ

/-- Modelled from the spec: `state()` returns the current vector (§4.1). -/
def state {n : ℕ} (s : KState n) : Vec n := s.x

/-- Modelled from the spec: `set_state(v)` overwrites the vector (§4.1). -/
def set_state {n : ℕ} (s : KState n) (v : Vec n) : KState n := { s with x := v }

/-- Modelled from the spec: `epoch()` reads the timestamp (§4.1). -/
def epoch {n : ℕ} (s : KState n) : ℚ := s.t

/-- Modelled from the spec: `set_epoch(t)` overwrites the timestamp (§4.1). -/
def set_epoch {n : ℕ} (s : KState n) (t : ℚ) : KState n := { s with t := t }

/-- Modelled from the spec: the `propagate` of the missing state trait
(§4.1): compute `dynamics_fn(current_state, exogenous_input, dt)`, overwrite
the vector, advance the timestamp by dt; a total mutating operation. -/
def propagate {n ι : ℕ} (s : KState n) (dynamics_fn : Vec n → Vec ι → ℚ → Vec n)
    (dt : ℚ) (u : Vec ι) : KState n :=
  set_epoch (set_state s (dynamics_fn (state s) u dt)) (epoch s + dt)

/-- Modelled from the spec: the sampling strategies of the missing
`sigma_points.rs` (§4.2), a tagged variant as §9 suggests.  The symmetric
variant stores its eps-like parameter `alpha`, secondary parameter `beta`
and the derived scaling `lambda`; the minimal-skew simplex stores the first
point's weight `w0`. -/
inductive Sampling (n : ℕ) where
  | minimalSkewSimplex (w0 : ℚ)
  | symmetricallyDistributed (alpha beta lambda : ℚ)
deriving DecidableEq

/-- Modelled from the spec: construction of the minimal-skew simplex
strategy (§4.2): fails with a configuration error iff w0 is outside the
open interval (0,1). -/
def MinimalSkewSimplexSampling.build (n : ℕ) (w0 : ℚ) : Except YakfError (Sampling n) :=
  if 0 < w0 ∧ w0 < 1 then .ok (.minimalSkewSimplex w0)
  else .error .InvalidSamplingParameter

/-- Modelled from the spec: the derived scaling λ = a²(n+κ) − n of the
symmetric variant, κ defaulting to the standard literature value 0 (§4.2). -/
def sdsLambda (n : ℕ) (a : ℚ) (k : Option ℚ) : ℚ :=
  a ^ 2 * ((n : ℚ) + k.getD 0) - (n : ℚ)

/-- Modelled from the spec: construction of the symmetric-distribution
strategy (§4.2): an eps-like spread parameter `a` and optional secondary
parameters (β defaulting to 2, κ defaulting to 0); fails with a
configuration error iff the derived scaling makes n+λ ≤ 0, which would make
the matrix square root undefined. -/
def SymmetricallyDistributedSampling.build (n : ℕ) (a : ℚ) (b k : Option ℚ) :
    Except YakfError (Sampling n) :=
  if (n : ℚ) + sdsLambda n a k ≤ 0 then .error .InvalidSamplingParameter
  else .ok (.symmetricallyDistributed a (b.getD 2) (sdsLambda n a k))

/-- Modelled from the spec: the external matrix library's decomposition-based
matrix square root (§6, e.g. Cholesky): on success it returns S with
S·Sᵗ = A; failure (non-positive-definite input) is reported as `none`. -/
structure MatSqrt (n : ℕ) where
  f : Mat n n → Option (Mat n n)
  spec : ∀ A S, f A = some S → matMul S (matTrans S) = A

/-- Modelled from the spec: the external matrix library's decomposition-based
linear solve for the gain equation K·Pyy = Pxy (§4.3, §6): on success the
returned K satisfies the equation; a singular system is reported as `none`. -/
structure LinSolve (n m : ℕ) where
  f : Mat m m → Mat n m → Option (Mat n m)
  spec : ∀ B C K, f B C = some K → matMul K B = C

/-- Modelled from the spec: the minimal-skew simplex weight sequence (§4.2):
w0 on the first point, w1 = w2 = (1−w0)/2ⁿ, and wᵢ = 2^(i−2)·w1 for the
later points (the standard minimal-skew parameterization, §9). -/
def mssW (n : ℕ) (w0 : ℚ) : ℕ → ℚ
  | 0 => w0
  | 1 => (1 - w0) / 2 ^ n
  | j + 2 => 2 ^ j * ((1 - w0) / 2 ^ n)

/-- Modelled from the spec: the unit minimal-skew simplex points (§4.2, §9),
built dimension by dimension; point index ↦ coordinate ↦ value, zero outside
the valid range.  Stage j+1 appends 0 to the first point, −1/√(2·w(j+2)) to
the others, and adds one new point with last coordinate 1/√(2·w(j+2)). -/
def mssU (n : ℕ) (w0 : ℚ) : ℕ → Option (ℕ → ℕ → ℚ)
  | 0 => some fun _ _ => 0
  | j + 1 =>
    match mssU n w0 j with
    | none => none
    | some u =>
      match invSqrt (2 * mssW n w0 (j + 2)) with
      | none => none
      | some x => some fun i c =>
          if i = 0 then u 0 c
          else if i ≤ j + 1 then (if c = j then -x else u i c)
          else if i = j + 2 then (if c = j then x else 0)
          else 0

/-- Modelled from the spec: `sample(mean, covariance) → SigmaPointSet`
(§4.2), the common capability of both strategies.  A sigma-point set is an
ordered sequence of (weight-for-mean, weight-for-covariance, sample-vector)
triples (§3).  The minimal-skew variant spreads the unit simplex through the
matrix square root of P; the symmetric variant takes the mean plus, per
dimension, a pair offset by ± a column of the square root of (n+λ)·P.
Decomposition failure is reported as a numerical error, not masked. -/
def sample {n : ℕ} (ms : MatSqrt n) :
    Sampling n → Vec n → Mat n n → Except YakfError (List (ℚ × ℚ × Vec n))
  | .minimalSkewSimplex w0, mean, p =>
    match ms.f p with
    | none => .error .NumericalFailure
    | some S =>
      match mssU n w0 n with
      | none => .error .NumericalFailure
      | some u => .ok ((List.range (n + 2)).map fun i =>
          (mssW n w0 i, mssW n w0 i,
           fun r => mean r + matVecMul S (fun c => u i c.val) r))
  | .symmetricallyDistributed a b lam, mean, p =>
    match ms.f (fun i j => ((n : ℚ) + lam) * p i j) with
    | none => .error .NumericalFailure
    | some S => .ok (
        (lam / ((n : ℚ) + lam), lam / ((n : ℚ) + lam) + 1 - a ^ 2 + b, mean) ::
        (List.finRange n).flatMap fun j =>
          [(1 / (2 * ((n : ℚ) + lam)), 1 / (2 * ((n : ℚ) + lam)),
            fun r => mean r + S r j),
           (1 / (2 * ((n : ℚ) + lam)), 1 / (2 * ((n : ℚ) + lam)),
            fun r => mean r - S r j)])

/-- Sum of the mean-weights of a sigma-point set. -/
def weightSum {n : ℕ} (pts : List (ℚ × ℚ × Vec n)) : ℚ :=
  (pts.map fun p => p.1).sum

/-- The weighted reconstruction of a mean from a sigma-point set (§4.3):
x̂ = Σ weight_mean_i · point_i, entrywise. -/
def reconMean {n : ℕ} (pts : List (ℚ × ℚ × Vec n)) : Vec n :=
  fun i => (pts.map fun p => p.1 * p.2.2 i).sum

/-- The weighted reconstruction of a covariance about x from a sigma-point
set (§4.3): P = Σ weight_cov_i · (point_i − x)(point_i − x)ᵗ, entrywise. -/
def reconCov {n : ℕ} (pts : List (ℚ × ℚ × Vec n)) (x : Vec n) : Mat n n :=
  fun i j => (pts.map fun p => p.2.1 * (p.2.2 i - x i) * (p.2.2 j - x j)).sum

/-- Running weighted-mean accumulation, as the engine's summation loop. -/
def accMean {n : ℕ} (pts : List (ℚ × ℚ × Vec n)) : Vec n :=
  pts.foldl (fun acc p => acc + p.1 • p.2.2) 0

/-- Running weighted-covariance accumulation about x, as the engine's
summation loop. -/
def accCov {n : ℕ} (pts : List (ℚ × ℚ × Vec n)) (x : Vec n) : Mat n n :=
  pts.foldl (fun acc p => acc + p.2.1 • outerProd (p.2.2 - x) (p.2.2 - x)) 0

/-- Running weighted cross-covariance accumulation between the state points
(about xm) and their measurement images (about ym). -/
def accCross {n m : ℕ} (pts : List (ℚ × ℚ × Vec n)) (h : Vec n → Vec m)
    (xm : Vec n) (ym : Vec m) : Mat n m :=
  pts.foldl (fun acc p => acc + p.2.1 • outerProd (p.2.2 - xm) (h p.2.2 - ym)) 0

/-- Modelled from the spec: propagation of every sigma point through the
dynamics function (§4.3 predict step), keeping the weights. -/
def sigmaPropagate {n ι : ℕ} (pts : List (ℚ × ℚ × Vec n))
    (dynamics_fn : Vec n → Vec ι → ℚ → Vec n) (u : Vec ι) (dt : ℚ) :
    List (ℚ × ℚ × Vec n) :=
  pts.map fun p => (p.1, p.2.1, dynamics_fn p.2.2 u dt)

/-- Modelled from the spec: the predict-phase recombination (§4.3):
propagate the sampled points, then x̂⁻ as the accumulated weighted mean and
P⁻ as the accumulated weighted covariance plus the process noise Q. -/
def predictPhase {n ι : ℕ} (pts : List (ℚ × ℚ × Vec n))
    (dynamics_fn : Vec n → Vec ι → ℚ → Vec n) (u : Vec ι) (dt : ℚ)
    (q : Mat n n) : Vec n × Mat n n :=
  let prop := sigmaPropagate pts dynamics_fn u dt
  let xm := accMean prop
  (xm, accCov prop xm + q)

/-- Modelled from the spec: mapping of re-sampled points through the
measurement function (§4.3 update step), keeping the weights. -/
def measPoints {n m : ℕ} (pts : List (ℚ × ℚ × Vec n))
    (measurement_fn : Vec n → Vec m) : List (ℚ × ℚ × Vec m) :=
  pts.map fun p => (p.1, p.2.1, measurement_fn p.2.2)

/-- Modelled from the spec: the UKF engine of the missing `ukf.rs` (§2, §3):
the composition of dynamics function, measurement function, sampling
strategy, current state estimate `stt`, covariance P, process noise Q and
measurement noise R. -/
structure UKF (n m ι : ℕ) where
  dynamics : Vec n → Vec ι → ℚ → Vec n
  measure : Vec n → Vec m
  sampling : Sampling n
  stt : KState n
  p : Mat n n
  q : Mat n n
  r : Mat m m

/-- Modelled from the spec: `UKF::build` (§4.3): pure composition of the
supplied parts, no numerical failure. -/
def UKF.build {n m ι : ℕ} (dynamics_fn : Vec n → Vec ι → ℚ → Vec n)
    (measurement_fn : Vec n → Vec m) (sampling : Sampling n)
    (initial : KState n) (p0 q : Mat n n) (r : Mat m m) : UKF n m ι :=
  { dynamics := dynamics_fn, measure := measurement_fn, sampling := sampling,
    stt := initial, p := p0, q := q, r := r }

/-- Modelled from the spec: `current_estimate()` (§4.3): a read-only
snapshot of the current (state vector, timestamp), no side effects. -/
def UKF.current_estimate {n m ι : ℕ} (k : UKF n m ι) : KState n := k.stt

/-- Modelled from the spec: `feed_and_update(measurement, measurement_epoch,
exogenous_input)` of the missing `ukf.rs` (§4.3): predict then update, in
place.  dt is the elapsed time since the last accepted measurement; the
engine performs no ordering check on the measurement epoch (ordering is the
caller's responsibility, §4.3).  Predict: sample from the current belief,
propagate through the dynamics, recombine with Q.  Update: re-sample from
(x̂⁻, P⁻), map through the measurement function, form ŷ, Pyy (+R) and Pxy,
solve K·Pyy = Pxy, then commit x̂ = x̂⁻ + K(y−ŷ), P = P⁻ − K·Pyy·Kᵗ and the
measurement's timestamp.  The mutated engine is returned with `none`; on a
decomposition failure the engine is returned untouched with the error. -/
def feed_and_update {n m ι : ℕ} (k : UKF n m ι) (ms : MatSqrt n)
    (ls : LinSolve n m) (y : Vec m) (tm : ℚ) (u : Vec ι) :
    UKF n m ι × Option YakfError :=
  match sample ms k.sampling k.stt.x k.p with
  | .error e => (k, some e)
  | .ok pts =>
    match sample ms k.sampling
        (predictPhase pts k.dynamics u (tm - k.stt.t) k.q).1
        (predictPhase pts k.dynamics u (tm - k.stt.t) k.q).2 with
    | .error e => (k, some e)
    | .ok pts2 =>
      match ls.f
          (accCov (measPoints pts2 k.measure)
            (accMean (measPoints pts2 k.measure)) + k.r)
          (accCross pts2 k.measure
            (predictPhase pts k.dynamics u (tm - k.stt.t) k.q).1
            (accMean (measPoints pts2 k.measure))) with
      | none => (k, some .NumericalFailure)
      | some K =>
        ({ k with
            stt := ⟨(predictPhase pts k.dynamics u (tm - k.stt.t) k.q).1
              + matVecMul K (y - accMean (measPoints pts2 k.measure)), tm⟩,
            p := (predictPhase pts k.dynamics u (tm - k.stt.t) k.q).2
              - matMul (matMul K (accCov (measPoints pts2 k.measure)
                  (accMean (measPoints pts2 k.measure)) + k.r))
                (matTrans K) }, none)

/-! ## A concrete one-dimensional instantiation

Used to exhibit concrete runs of the engine: identity dynamics and
measurement, the symmetric strategy with α = 1, β = 2, λ = 0 (κ = 0), unit
initial covariance, zero noise matrices, and lookup-table decomposition
collaborators that answer exactly the calls this run makes. -/

def vzero : Vec 1 := fun _ => 0

def oneM : Mat 1 1 := fun _ _ => 1

def zeroM : Mat 1 1 := fun _ _ => 0

def dynW : Vec 1 → Vec 1 → ℚ → Vec 1 := fun x _ _ => x

def measW : Vec 1 → Vec 1 := fun x => x

def sdsW : Sampling 1 := .symmetricallyDistributed 1 2 0

def msW1f : Mat 1 1 → Option (Mat 1 1) :=
  fun A => if A 0 0 = 1 then some oneM else none

def msW1 : MatSqrt 1 :=
  ⟨msW1f, by
    intro A S h
    rw [msW1f] at h
    split at h
    · rename_i hA
      rw [← Option.some.inj h]
      funext i j
      rw [show i = 0 from Subsingleton.elim i 0,
        show j = 0 from Subsingleton.elim j 0]
      simp [matMul, matTrans, oneM, hA]
    · simp at h⟩

def lsW1f : Mat 1 1 → Mat 1 1 → Option (Mat 1 1) :=
  fun B C => if B 0 0 = 1 ∧ C 0 0 = 1 then some oneM else none

def lsW1 : LinSolve 1 1 :=
  ⟨lsW1f, by
    intro B C K h
    rw [lsW1f] at h
    split at h
    · rename_i hBC
      rw [← Option.some.inj h]
      funext i j
      rw [show i = 0 from Subsingleton.elim i 0,
        show j = 0 from Subsingleton.elim j 0]
      simp [matMul, matTrans, oneM, hBC.1, hBC.2]
    · simp at h⟩

def msNone : MatSqrt 1 := ⟨fun _ => none, fun _ _ h => Option.noConfusion h⟩

def k0 : UKF 1 1 1 := UKF.build dynW measW sdsW ⟨vzero, 0⟩ oneM zeroM zeroM

def ptsW : List (ℚ × ℚ × Vec 1) :=
  [(0, 2, vzero), (1/2, 1/2, fun _ => 1), (1/2, 1/2, fun _ => -1)]

/-- A sampling configuration as a successful builder leaves it: w0 inside
(0,1) for the minimal-skew simplex, n+λ positive for the symmetric
variant. -/
def SamplingValid {n : ℕ} : Sampling n → Prop
  | .minimalSkewSimplex w0 => 0 < w0 ∧ w0 < 1
  | .symmetricallyDistributed _ _ lam => 0 < (n : ℚ) + lam

/-! ## Summation helpers -/

lemma foldl_add_eq {α M : Type*} [AddMonoid M] (g : α → M) :
    ∀ (l : List α) (a : M), l.foldl (fun acc p => acc + g p) a = a + (l.map g).sum
  | [], a => by simp
  | p :: t, a => by
    rw [List.foldl_cons, foldl_add_eq g t (a + g p), List.map_cons, List.sum_cons,
      add_assoc]

lemma list_sum_apply {ι M : Type*} [AddCommMonoid M] (i : ι) :
    ∀ l : List (ι → M), l.sum i = (l.map fun f => f i).sum
  | [] => rfl
  | f :: t => by
    rw [List.sum_cons, List.map_cons, List.sum_cons, Pi.add_apply, list_sum_apply i t]

lemma list_range_map_sum (φ : ℕ → ℚ) :
    ∀ m : ℕ, ((List.range m).map φ).sum = ∑ i ∈ Finset.range m, φ i
  | 0 => by simp
  | m + 1 => by
    rw [List.range_succ, List.map_append, List.sum_append, Finset.sum_range_succ,
      list_range_map_sum φ m]
    simp

lemma list_sum_flatMap_pair {α β : Type*} (l : List α) (F G : α → β) (e : β → ℚ) :
    ((l.flatMap fun a => [F a, G a]).map e).sum = (l.map fun a => e (F a) + e (G a)).sum := by
  induction l with
  | nil => rfl
  | cons a t ih => simp [ih, add_assoc]

lemma finRange_map_sum {k : ℕ} (φ : Fin k → ℚ) :
    ((List.finRange k).map φ).sum = ∑ j, φ j := (Fin.sum_univ_def φ).symm

lemma accMean_eq_reconMean {n : ℕ} (pts : List (ℚ × ℚ × Vec n)) :
    accMean pts = reconMean pts := by
  funext i
  rw [accMean, reconMean, foldl_add_eq, Pi.add_apply, Pi.zero_apply, zero_add,
    list_sum_apply, List.map_map]
  congr 1

lemma accCov_eq_reconCov {n : ℕ} (pts : List (ℚ × ℚ × Vec n)) (x : Vec n) :
    accCov pts x = reconCov pts x := by
  funext i j
  rw [accCov, reconCov, foldl_add_eq]
  rw [Pi.add_apply, Pi.add_apply, Pi.zero_apply, Pi.zero_apply, zero_add,
    list_sum_apply, List.map_map, list_sum_apply, List.map_map]
  refine congrArg List.sum (List.map_congr_left fun p _ => ?_)
  simp [outerProd, Pi.smul_apply, smul_eq_mul, mul_assoc]

lemma accCross_apply {n m : ℕ} (pts : List (ℚ × ℚ × Vec n)) (h : Vec n → Vec m)
    (xm : Vec n) (ym : Vec m) (i : Fin n) (j : Fin m) :
    accCross pts h xm ym i j =
      (pts.map fun p => p.2.1 * (p.2.2 i - xm i) * (h p.2.2 j - ym j)).sum := by
  rw [accCross, foldl_add_eq]
  rw [Pi.add_apply, Pi.add_apply, Pi.zero_apply, Pi.zero_apply, zero_add,
    list_sum_apply, List.map_map, list_sum_apply, List.map_map]
  refine congrArg List.sum (List.map_congr_left fun p _ => ?_)
  simp [outerProd, Pi.smul_apply, smul_eq_mul, mul_assoc]

/-! ## Exact square-root helpers -/

lemma ratSqrt_spec {q r : ℚ} (h : ratSqrt q = some r) : r * r = q := by
  rw [ratSqrt] at h
  split at h
  · exact absurd h (by simp)
  · split at h
    · rename_i hneg hsq
      obtain ⟨hn, hd⟩ := hsq
      have hr : r = ((isqrt q.num.toNat : ℚ) / (isqrt q.den : ℚ)) := by
        exact (Option.some.inj h).symm
      have hden : ((q.den : ℚ)) ≠ 0 := by
        exact_mod_cast q.den_nz
      rw [hr, div_mul_div_comm]
      rw [show ((isqrt q.num.toNat : ℚ)) * (isqrt q.num.toNat : ℚ)
            = ((isqrt q.num.toNat * isqrt q.num.toNat : ℕ) : ℚ) by push_cast; ring]
      rw [show ((isqrt q.den : ℚ)) * (isqrt q.den : ℚ)
            = ((isqrt q.den * isqrt q.den : ℕ) : ℚ) by push_cast; ring]
      rw [hn, hd]
      have h0 : 0 ≤ q.num := Rat.num_nonneg.mpr (le_of_not_lt (by assumption))
      rw [show ((q.num.toNat : ℕ) : ℚ) = ((q.num : ℤ) : ℚ) by
        exact_mod_cast congrArg (fun z : ℤ => (z : ℚ)) (Int.toNat_of_nonneg h0)]
      exact Rat.num_div_den q
    · exact absurd h (by simp)

lemma invSqrt_spec {q x : ℚ} (h : invSqrt q = some x) :
    0 < q ∧ x * x * q = 1 := by
  rw [invSqrt] at h
  split at h
  · rename_i hq
    obtain ⟨r, hr, hx⟩ := Option.map_eq_some'.mp h
    have hrr := ratSqrt_spec hr
    have hrne : r ≠ 0 := by
      intro h0
      rw [h0, mul_zero] at hrr
      exact absurd hrr.symm (ne_of_gt hq)
    refine ⟨hq, ?_⟩
    rw [← hx, ← hrr]
    field_simp
  · exact absurd h (by simp)

/-! ## Minimal-skew simplex weight identities -/

lemma mssW_two_eq_one (n : ℕ) (w0 : ℚ) : mssW n w0 2 = mssW n w0 1 := by
  simp [mssW]

lemma mssW_double (n : ℕ) (w0 : ℚ) (j : ℕ) :
    mssW n w0 (j + 3) = 2 * mssW n w0 (j + 2) := by
  show (2:ℚ) ^ (j+1) * _ = 2 * ((2:ℚ) ^ j * _)
  rw [pow_succ]
  ring

lemma mssW_partial (n : ℕ) (w0 : ℚ) :
    ∀ j : ℕ, (∑ i ∈ Finset.range (j + 1), mssW n w0 (i + 1)) = mssW n w0 (j + 2)
  | 0 => by
    rw [Finset.sum_range_one, mssW_two_eq_one]
  | j + 1 => by
    rw [Finset.sum_range_succ, mssW_partial n w0 j, mssW_double]
    ring

lemma mssW_total (n : ℕ) (w0 : ℚ) :
    ∑ i ∈ Finset.range (n + 2), mssW n w0 i = 1 := by
  rw [Finset.sum_range_succ' (mssW n w0) (n + 1), mssW_partial]
  have h2 : ((2:ℚ)) ^ n ≠ 0 := pow_ne_zero n two_ne_zero
  show (2:ℚ) ^ n * ((1 - w0) / 2 ^ n) + w0 = 1
  field_simp


/-! ## Minimal-skew simplex point invariants

By induction on the stage j: the first unit point is zero, points vanish
outside the valid range, the weighted first moment is zero, and the weighted
second moment is the identity on the first j coordinates. -/

lemma mssU_spec (n : ℕ) (w0 : ℚ) :
    ∀ (j : ℕ) (u : ℕ → ℕ → ℚ), mssU n w0 j = some u →
      (∀ c, u 0 c = 0) ∧
      (∀ i c, j + 2 ≤ i ∨ j ≤ c → u i c = 0) ∧
      (∀ c, c < j → ∑ i ∈ Finset.range (j + 2), mssW n w0 i * u i c = 0) ∧
      (∀ c d, c < j → d < j →
        ∑ i ∈ Finset.range (j + 2), mssW n w0 i * u i c * u i d =
          if c = d then 1 else 0) := by
  intro j
  induction j with
  | zero =>
    intro u hu
    simp only [mssU] at hu
    have he : u = fun _ _ => (0:ℚ) := (Option.some.inj hu).symm
    subst he
    exact ⟨fun _ => rfl, fun _ _ _ => rfl,
      fun c hc => absurd hc (Nat.not_lt_zero c),
      fun c d hc _ => absurd hc (Nat.not_lt_zero c)⟩
  | succ j ih =>
    intro u' hu'
    rw [mssU] at hu'
    cases hprev : mssU n w0 j with
    | none => rw [hprev] at hu'; simp at hu'
    | some u =>
      rw [hprev] at hu'
      cases hx : invSqrt (2 * mssW n w0 (j + 2)) with
      | none => rw [hx] at hu'; simp at hu'
      | some x =>
        rw [hx] at hu'
        have hu2 : (some fun i c =>
            if i = 0 then u 0 c
            else if i ≤ j + 1 then (if c = j then -x else u i c)
            else if i = j + 2 then (if c = j then x else 0)
            else (0:ℚ)) = some u' := hu'
        have he : u' = fun i c =>
            if i = 0 then u 0 c
            else if i ≤ j + 1 then (if c = j then -x else u i c)
            else if i = j + 2 then (if c = j then x else 0)
            else (0:ℚ) := (Option.some.inj hu2).symm
        obtain ⟨ih0, ihZ, ihM, ihC⟩ := ih u hprev
        obtain ⟨hxpos, hxx⟩ := invSqrt_spec hx
        have v0 : ∀ c, u' 0 c = u 0 c := by
          intro c
          rw [he]
          show (if (0:ℕ) = 0 then u 0 c
            else if (0:ℕ) ≤ j + 1 then (if c = j then -x else u 0 c)
            else if (0:ℕ) = j + 2 then (if c = j then x else 0)
            else (0:ℚ)) = u 0 c
          rw [if_pos rfl]
        have vm : ∀ i c, 1 ≤ i → i ≤ j + 1 →
            u' i c = if c = j then -x else u i c := by
          intro i c h1 h2
          rw [he]
          show (if i = 0 then u 0 c
            else if i ≤ j + 1 then (if c = j then -x else u i c)
            else if i = j + 2 then (if c = j then x else 0)
            else (0:ℚ)) = _
          rw [if_neg (by omega : ¬ i = 0), if_pos h2]
        have vl : ∀ c, u' (j + 2) c = if c = j then x else 0 := by
          intro c
          rw [he]
          show (if j + 2 = 0 then u 0 c
            else if j + 2 ≤ j + 1 then (if c = j then -x else u (j + 2) c)
            else if j + 2 = j + 2 then (if c = j then x else 0)
            else (0:ℚ)) = _
          rw [if_neg (by omega : ¬ j + 2 = 0),
            if_neg (by omega : ¬ j + 2 ≤ j + 1), if_pos rfl]
        have vbig : ∀ i c, j + 3 ≤ i → u' i c = 0 := by
          intro i c hi
          rw [he]
          show (if i = 0 then u 0 c
            else if i ≤ j + 1 then (if c = j then -x else u i c)
            else if i = j + 2 then (if c = j then x else 0)
            else (0:ℚ)) = 0
          rw [if_neg (by omega : ¬ i = 0),
            if_neg (by omega : ¬ i ≤ j + 1), if_neg (by omega : ¬ i = j + 2)]
        have peel : ∀ f : ℕ → ℚ,
            ∑ i ∈ Finset.range (j + 1 + 2), f i =
              ((∑ i ∈ Finset.range (j + 1), f (i + 1)) + f 0) + f (j + 2) := by
          intro f
          rw [show j + 1 + 2 = (j + 2) + 1 from rfl, Finset.sum_range_succ,
            Finset.sum_range_succ' f (j + 1)]
        refine ⟨fun c => by rw [v0]; exact ih0 c, ?_, ?_, ?_⟩
        · -- vanishing outside the valid range
          intro i c hic
          rcases Nat.lt_or_ge i 1 with h0 | h0
          · have hz : i = 0 := by omega
            subst hz
            rw [v0]
            exact ih0 c
          · rcases Nat.lt_or_ge i (j + 2) with hle | hge
            · rw [vm i c h0 (by omega), if_neg (by omega : ¬ c = j)]
              exact ihZ i c (Or.inr (by omega))
            · rcases Nat.eq_or_lt_of_le hge with heq | hgt
              · rw [← heq, vl c, if_neg (by omega : ¬ c = j)]
              · exact vbig i c (by omega)
        · -- weighted first moment vanishes
          intro c hc
          rw [peel]
          by_cases hcj : c = j
          · have hmid : ∑ i ∈ Finset.range (j + 1),
                mssW n w0 (i + 1) * u' (i + 1) c =
                -(mssW n w0 (j + 2) * x) := by
              have hpt : ∀ i ∈ Finset.range (j + 1),
                  mssW n w0 (i + 1) * u' (i + 1) c =
                  mssW n w0 (i + 1) * (-x) := by
                intro i hi
                have hi' := Finset.mem_range.mp hi
                rw [vm (i + 1) c (by omega) (by omega), if_pos hcj]
              rw [Finset.sum_congr rfl hpt, ← Finset.sum_mul, mssW_partial]
              ring
            rw [hmid, v0, ih0 c, vl, if_pos hcj]
            ring
          · have hc' : c < j := by omega
            have hmid : ∑ i ∈ Finset.range (j + 1),
                mssW n w0 (i + 1) * u' (i + 1) c =
                ∑ i ∈ Finset.range (j + 1), mssW n w0 (i + 1) * u (i + 1) c := by
              refine Finset.sum_congr rfl fun i hi => ?_
              have hi' := Finset.mem_range.mp hi
              rw [vm (i + 1) c (by omega) (by omega), if_neg hcj]
            have hbase := ihM c hc'
            rw [Finset.sum_range_succ' (fun i => mssW n w0 i * u i c) (j + 1)]
              at hbase
            rw [hmid, v0, vl, if_neg hcj, mul_zero, add_zero]
            exact hbase
        · -- weighted second moment is the identity
          intro c d hc hd
          rw [peel]
          by_cases hcj : c = j <;> by_cases hdj : d = j
          · have hmid : ∑ i ∈ Finset.range (j + 1),
                mssW n w0 (i + 1) * u' (i + 1) c * u' (i + 1) d =
                mssW n w0 (j + 2) * (x * x) := by
              have hpt : ∀ i ∈ Finset.range (j + 1),
                  mssW n w0 (i + 1) * u' (i + 1) c * u' (i + 1) d =
                  mssW n w0 (i + 1) * (x * x) := by
                intro i hi
                have hi' := Finset.mem_range.mp hi
                rw [vm (i + 1) c (by omega) (by omega), if_pos hcj,
                  vm (i + 1) d (by omega) (by omega), if_pos hdj]
                ring
              rw [Finset.sum_congr rfl hpt, ← Finset.sum_mul, mssW_partial]
            rw [hmid, v0, ih0 c, vl, vl, if_pos hcj, if_pos hdj,
              if_pos (by omega : c = d)]
            linear_combination hxx
          · have hd' : d < j := by omega
            have hsub : ∑ i ∈ Finset.range (j + 1),
                mssW n w0 (i + 1) * u (i + 1) d = 0 := by
              have hbase := ihM d hd'
              rw [Finset.sum_range_succ' (fun i => mssW n w0 i * u i d) (j + 1),
                ih0 d, mul_zero, add_zero] at hbase
              exact hbase
            have hmid : ∑ i ∈ Finset.range (j + 1),
                mssW n w0 (i + 1) * u' (i + 1) c * u' (i + 1) d =
                -x * ∑ i ∈ Finset.range (j + 1),
                  mssW n w0 (i + 1) * u (i + 1) d := by
              rw [Finset.mul_sum]
              refine Finset.sum_congr rfl fun i hi => ?_
              have hi' := Finset.mem_range.mp hi
              rw [vm (i + 1) c (by omega) (by omega), if_pos hcj,
                vm (i + 1) d (by omega) (by omega), if_neg hdj]
              ring
            rw [hmid, hsub, v0, ih0 c, vl, vl, if_pos hcj, if_neg hdj,
              if_neg (by omega : ¬ c = d)]
            ring
          · have hc' : c < j := by omega
            have hsub : ∑ i ∈ Finset.range (j + 1),
                mssW n w0 (i + 1) * u (i + 1) c = 0 := by
              have hbase := ihM c hc'
              rw [Finset.sum_range_succ' (fun i => mssW n w0 i * u i c) (j + 1),
                ih0 c, mul_zero, add_zero] at hbase
              exact hbase
            have hmid : ∑ i ∈ Finset.range (j + 1),
                mssW n w0 (i + 1) * u' (i + 1) c * u' (i + 1) d =
                -x * ∑ i ∈ Finset.range (j + 1),
                  mssW n w0 (i + 1) * u (i + 1) c := by
              rw [Finset.mul_sum]
              refine Finset.sum_congr rfl fun i hi => ?_
              have hi' := Finset.mem_range.mp hi
              rw [vm (i + 1) c (by omega) (by omega), if_neg hcj,
                vm (i + 1) d (by omega) (by omega), if_pos hdj]
              ring
            rw [hmid, hsub, v0, ih0 c, vl, vl, if_neg hcj, if_pos hdj,
              if_neg (by omega : ¬ c = d)]
            ring
          · have hc' : c < j := by omega
            have hd' : d < j := by omega
            have hmid : ∑ i ∈ Finset.range (j + 1),
                mssW n w0 (i + 1) * u' (i + 1) c * u' (i + 1) d =
                ∑ i ∈ Finset.range (j + 1),
                  mssW n w0 (i + 1) * u (i + 1) c * u (i + 1) d := by
              refine Finset.sum_congr rfl fun i hi => ?_
              have hi' := Finset.mem_range.mp hi
              rw [vm (i + 1) c (by omega) (by omega), if_neg hcj,
                vm (i + 1) d (by omega) (by omega), if_neg hdj]
            have hbase := ihC c d hc' hd'
            rw [Finset.sum_range_succ'
              (fun i => mssW n w0 i * u i c * u i d) (j + 1),
              ih0 c, mul_zero, zero_mul, add_zero] at hbase
            rw [hmid, v0, ih0 c, vl, vl, if_neg hcj, mul_zero, zero_mul,
              add_zero, mul_zero, zero_mul, add_zero]
            exact hbase

/-! ## Reconstruction identities of the two sampling variants -/

lemma msss_recon {n : ℕ} (ms : MatSqrt n) (w0 : ℚ) (mean : Vec n) (p : Mat n n)
    (pts : List (ℚ × ℚ × Vec n))
    (hs : sample ms (Sampling.minimalSkewSimplex w0) mean p = .ok pts) :
    weightSum pts = 1 ∧ reconMean pts = mean ∧ reconCov pts mean = p := by
  rw [sample] at hs
  cases hS : ms.f p with
  | none => rw [hS] at hs; simp at hs
  | some S =>
    rw [hS] at hs
    cases hU : mssU n w0 n with
    | none => rw [hU] at hs; simp at hs
    | some u =>
      rw [hU] at hs
      have hpts : pts = (List.range (n + 2)).map fun i =>
          (mssW n w0 i, mssW n w0 i,
           fun r => mean r + matVecMul S (fun c => u i c.val) r) :=
        (Except.ok.inj hs).symm
      subst hpts
      obtain ⟨ih0, ihZ, ihM, ihC⟩ := mssU_spec n w0 n u hU
      have hSS : matMul S (matTrans S) = p := ms.spec p S hS
      have hmap : ∀ g : (ℚ × ℚ × Vec n) → ℚ,
          (((List.range (n + 2)).map fun i =>
            ((mssW n w0 i, mssW n w0 i,
              fun r => mean r + matVecMul S (fun c => u i c.val) r) :
                ℚ × ℚ × Vec n)).map g).sum =
          ∑ i ∈ Finset.range (n + 2),
            g (mssW n w0 i, mssW n w0 i,
               fun r => mean r + matVecMul S (fun c => u i c.val) r) := by
        intro g
        rw [List.map_map, list_range_map_sum]
        exact Finset.sum_congr rfl fun i _ => rfl
      refine ⟨?_, ?_, ?_⟩
      · rw [weightSum, hmap]
        exact (Finset.sum_congr rfl fun i _ => rfl).trans (mssW_total n w0)
      · funext r
        simp only [reconMean]
        rw [hmap]
        dsimp only
        simp only [matVecMul]
        have hkey : ∀ i ∈ Finset.range (n + 2),
            mssW n w0 i * (mean r + ∑ c, S r c * u i c.val) =
            mssW n w0 i * mean r + ∑ c, S r c * (mssW n w0 i * u i c.val) := by
          intro i _
          rw [mul_add, Finset.mul_sum]
          exact congrArg _ (Finset.sum_congr rfl fun c _ => by ring)
        rw [Finset.sum_congr rfl hkey, Finset.sum_add_distrib, ← Finset.sum_mul,
          mssW_total, one_mul, Finset.sum_comm]
        have hc : ∀ c : Fin n, c ∈ Finset.univ →
            ∑ i ∈ Finset.range (n + 2), S r c * (mssW n w0 i * u i c.val) = 0 := by
          intro c _
          rw [← Finset.mul_sum, ihM c.val c.isLt, mul_zero]
        rw [Finset.sum_congr rfl hc, Finset.sum_const_zero, add_zero]
      · funext r t
        simp only [reconCov]
        rw [hmap]
        dsimp only
        simp only [matVecMul]
        have hterm : ∀ i ∈ Finset.range (n + 2),
            mssW n w0 i * ((mean r + ∑ c, S r c * u i c.val) - mean r) *
              ((mean t + ∑ c, S t c * u i c.val) - mean t) =
            ∑ c, ∑ d, (S r c * S t d) * (mssW n w0 i * u i c.val * u i d.val) := by
          intro i _
          rw [add_sub_cancel_left, add_sub_cancel_left, mul_assoc,
            Finset.sum_mul_sum, Finset.mul_sum]
          refine Finset.sum_congr rfl fun c _ => ?_
          rw [Finset.mul_sum]
          refine Finset.sum_congr rfl fun d _ => ?_
          ring
        rw [Finset.sum_congr rfl hterm, Finset.sum_comm]
        have h2 : ∀ c : Fin n, c ∈ Finset.univ →
            (∑ i ∈ Finset.range (n + 2), ∑ d : Fin n,
              (S r c * S t d) * (mssW n w0 i * u i c.val * u i d.val)) =
            S r c * S t c := by
          intro c _
          rw [Finset.sum_comm]
          have h3 : ∀ d : Fin n, d ∈ Finset.univ →
              ∑ i ∈ Finset.range (n + 2),
                (S r c * S t d) * (mssW n w0 i * u i c.val * u i d.val) =
              if c = d then S r c * S t d else 0 := by
            intro d _
            rw [← Finset.mul_sum, ihC c.val d.val c.isLt d.isLt]
            by_cases hcd : c = d
            · rw [if_pos (by rw [hcd]), if_pos hcd, mul_one]
            · rw [if_neg (fun hv => hcd (Fin.val_injective hv)), if_neg hcd,
                mul_zero]
          rw [Finset.sum_congr rfl h3, Finset.sum_ite_eq]
          simp
        rw [Finset.sum_congr rfl h2, ← hSS]
        simp [matMul, matTrans]

lemma sds_recon {n : ℕ} (ms : MatSqrt n) (a b lam : ℚ) (mean : Vec n)
    (p : Mat n n) (pts : List (ℚ × ℚ × Vec n)) (hpos : 0 < (n : ℚ) + lam)
    (hs : sample ms (Sampling.symmetricallyDistributed a b lam) mean p = .ok pts) :
    weightSum pts = 1 ∧ reconMean pts = mean ∧ reconCov pts mean = p := by
  have hne : (n : ℚ) + lam ≠ 0 := ne_of_gt hpos
  rw [sample] at hs
  cases hS : ms.f (fun i j => ((n : ℚ) + lam) * p i j) with
  | none => rw [hS] at hs; simp at hs
  | some S =>
    rw [hS] at hs
    have hpts : pts =
        ((lam / ((n : ℚ) + lam), lam / ((n : ℚ) + lam) + 1 - a ^ 2 + b, mean) ::
          (List.finRange n).flatMap fun j =>
            [(1 / (2 * ((n : ℚ) + lam)), 1 / (2 * ((n : ℚ) + lam)),
              fun r => mean r + S r j),
             (1 / (2 * ((n : ℚ) + lam)), 1 / (2 * ((n : ℚ) + lam)),
              fun r => mean r - S r j)]) :=
      (Except.ok.inj hs).symm
    subst hpts
    have hSS : matMul S (matTrans S) = fun i j => ((n : ℚ) + lam) * p i j :=
      ms.spec _ S hS
    have hSe : ∀ r t, (∑ j, S r j * S t j) = ((n : ℚ) + lam) * p r t := by
      intro r t
      have h := congrFun (congrFun hSS r) t
      simpa [matMul, matTrans] using h
    have hmap : ∀ g : (ℚ × ℚ × Vec n) → ℚ,
        ((((lam / ((n : ℚ) + lam), lam / ((n : ℚ) + lam) + 1 - a ^ 2 + b,
            mean) ::
          (List.finRange n).flatMap fun j =>
            [(1 / (2 * ((n : ℚ) + lam)), 1 / (2 * ((n : ℚ) + lam)),
              fun r => mean r + S r j),
             (1 / (2 * ((n : ℚ) + lam)), 1 / (2 * ((n : ℚ) + lam)),
              fun r => mean r - S r j)]).map g).sum) =
        g (lam / ((n : ℚ) + lam), lam / ((n : ℚ) + lam) + 1 - a ^ 2 + b, mean) +
        ∑ j : Fin n,
          (g (1 / (2 * ((n : ℚ) + lam)), 1 / (2 * ((n : ℚ) + lam)),
              fun r => mean r + S r j) +
           g (1 / (2 * ((n : ℚ) + lam)), 1 / (2 * ((n : ℚ) + lam)),
              fun r => mean r - S r j)) := by
      intro g
      rw [List.map_cons, List.sum_cons, list_sum_flatMap_pair, finRange_map_sum]
    refine ⟨?_, ?_, ?_⟩
    · rw [weightSum, hmap]
      dsimp only
      rw [Finset.sum_const, Finset.card_univ, Fintype.card_fin, nsmul_eq_mul]
      field_simp
      ring
    · funext r
      simp only [reconMean]
      rw [hmap]
      dsimp only
      have hj : ∀ j : Fin n, j ∈ Finset.univ →
          1 / (2 * ((n : ℚ) + lam)) * (mean r + S r j) +
            1 / (2 * ((n : ℚ) + lam)) * (mean r - S r j) =
          1 / ((n : ℚ) + lam) * mean r := by
        intro j _
        field_simp
        ring
      rw [Finset.sum_congr rfl hj, Finset.sum_const, Finset.card_univ,
        Fintype.card_fin, nsmul_eq_mul]
      field_simp
      ring
    · funext r t
      simp only [reconCov]
      rw [hmap]
      dsimp only
      have hj : ∀ j : Fin n, j ∈ Finset.univ →
          1 / (2 * ((n : ℚ) + lam)) * (mean r + S r j - mean r) *
              (mean t + S t j - mean t) +
            1 / (2 * ((n : ℚ) + lam)) * (mean r - S r j - mean r) *
              (mean t - S t j - mean t) =
          S r j * S t j * (1 / ((n : ℚ) + lam)) := by
        intro j _
        field_simp
        ring
      rw [Finset.sum_congr rfl hj, ← Finset.sum_mul, hSe, sub_self, mul_zero,
        zero_mul, zero_add]
      field_simp

/-! ## Point counts -/

lemma flatMap_pair_length {α β : Type*} (l : List α) (F G : α → β) :
    (l.flatMap fun a => [F a, G a]).length = 2 * l.length := by
  induction l with
  | nil => rfl
  | cons a t ih => simp [ih]; ring

lemma msss_length {n : ℕ} (ms : MatSqrt n) (w0 : ℚ) (mean : Vec n)
    (p : Mat n n) (pts : List (ℚ × ℚ × Vec n))
    (hs : sample ms (Sampling.minimalSkewSimplex w0) mean p = .ok pts) :
    pts.length = n + 2 := by
  rw [sample] at hs
  cases hS : ms.f p with
  | none => rw [hS] at hs; simp at hs
  | some S =>
    rw [hS] at hs
    cases hU : mssU n w0 n with
    | none => rw [hU] at hs; simp at hs
    | some u =>
      rw [hU] at hs
      rw [← Except.ok.inj hs]
      simp

lemma sds_length {n : ℕ} (ms : MatSqrt n) (a b lam : ℚ) (mean : Vec n)
    (p : Mat n n) (pts : List (ℚ × ℚ × Vec n))
    (hs : sample ms (Sampling.symmetricallyDistributed a b lam) mean p = .ok pts) :
    pts.length = 2 * n + 1 := by
  rw [sample] at hs
  cases hS : ms.f (fun i j => ((n : ℚ) + lam) * p i j) with
  | none => rw [hS] at hs; simp at hs
  | some S =>
    rw [hS] at hs
    rw [← Except.ok.inj hs]
    rw [List.length_cons, flatMap_pair_length, List.length_finRange]

/-! ## Concrete evaluation of the engine -/

lemma sampleEvalW : sample msW1 sdsW vzero oneM = .ok ptsW := by
  have hf : msW1.f (fun i j => (((1 : ℕ) : ℚ) + 0) * oneM i j) = some oneM := by
    simp only [msW1, msW1f]
    rw [if_pos (by norm_num [oneM])]
  rw [sdsW, sample, hf]
  refine congrArg Except.ok ?_
  rw [show List.finRange 1 = [(0 : Fin 1)] from rfl]
  simp only [List.flatMap_cons, List.flatMap_nil, List.append_nil, ptsW]
  norm_num [Prod.ext_iff, funext_iff, Fin.forall_fin_one, vzero, oneM]

lemma propEval (u : Vec 1) (dt : ℚ) : sigmaPropagate ptsW dynW u dt = ptsW := rfl

lemma measEval : measPoints ptsW measW = ptsW := rfl

lemma accMeanW : accMean ptsW = vzero := by
  rw [accMean_eq_reconMean]
  funext r
  simp [reconMean, ptsW, vzero]

lemma covPlusW : accCov ptsW vzero + zeroM = oneM := by
  rw [accCov_eq_reconCov]
  funext r t
  simp [reconCov, ptsW, vzero, zeroM, oneM, Pi.add_apply]
  norm_num

lemma accCrossW : accCross ptsW measW vzero vzero = oneM := by
  funext r t
  rw [accCross_apply]
  simp [ptsW, measW, vzero, oneM]
  norm_num

lemma ppEval (u : Vec 1) (dt : ℚ) :
    predictPhase ptsW dynW u dt zeroM = (vzero, oneM) := by
  show (accMean (sigmaPropagate ptsW dynW u dt),
    accCov (sigmaPropagate ptsW dynW u dt)
      (accMean (sigmaPropagate ptsW dynW u dt)) + zeroM) = (vzero, oneM)
  rw [propEval, accMeanW, covPlusW]

lemma lsEvalW : lsW1.f oneM oneM = some oneM := by
  simp only [lsW1, lsW1f]
  rw [if_pos (by norm_num [oneM])]

lemma commitX : vzero + matVecMul oneM (vzero - vzero) = vzero := by
  funext r
  simp [matVecMul, vzero, oneM]

lemma commitP : oneM - matMul (matMul oneM oneM) (matTrans oneM) = zeroM := by
  funext r t
  simp [matMul, matTrans, oneM, zeroM]

lemma feedEvalW (tm : ℚ) :
    feed_and_update k0 msW1 lsW1 vzero tm vzero =
      ({ k0 with stt := ⟨vzero, tm⟩, p := zeroM }, none) := by
  simp only [feed_and_update, k0, UKF.build, sampleEvalW, ppEval, measEval,
    accMeanW, covPlusW, accCrossW, lsEvalW, commitX, commitP]

/-! ## Error-side helpers -/

lemma sample_error {n : ℕ} (ms : MatSqrt n) (s : Sampling n) (mean : Vec n)
    (p : Mat n n) (e : YakfError) (h : sample ms s mean p = .error e) :
    e = .NumericalFailure := by
  cases s with
  | minimalSkewSimplex w0 =>
    rw [sample] at h
    cases hS : ms.f p with
    | none => rw [hS] at h; simp at h; exact h.symm
    | some S =>
      rw [hS] at h
      cases hU : mssU n w0 n with
      | none => rw [hU] at h; simp at h; exact h.symm
      | some u => rw [hU] at h; simp at h
  | symmetricallyDistributed a b lam =>
    rw [sample] at h
    cases hS : ms.f (fun i j => ((n : ℚ) + lam) * p i j) with
    | none => rw [hS] at h; simp at h; exact h.symm
    | some S => rw [hS] at h; simp at h

lemma sampleNoneEval (s : Sampling 1) (mean : Vec 1) (p : Mat 1 1) :
    sample msNone s mean p = .error .NumericalFailure := by
  cases s <;> rfl

lemma feedNoneEval (y : Vec 1) (tm : ℚ) (u : Vec 1) :
    feed_and_update k0 msNone lsW1 y tm u = (k0, some .NumericalFailure) := by
  simp only [feed_and_update, sampleNoneEval]

/-! ## The claims -/

/-- C1: in the predict phase of a feed_and_update cycle, after propagating
every sigma point through the dynamics function, the engine's predicted mean
is the weight_mean-weighted sum of the propagated points and its predicted
covariance is the weight_cov-weighted sum of outer products of (propagated
point minus predicted mean) plus the process-noise matrix Q. -/
theorem C1_predict_recombination {n ι : ℕ} (pts : List (ℚ × ℚ × Vec n))
    (dynamics_fn : Vec n → Vec ι → ℚ → Vec n) (u : Vec ι) (dt : ℚ)
    (q : Mat n n) :
    (predictPhase pts dynamics_fn u dt q).1 =
      reconMean (sigmaPropagate pts dynamics_fn u dt) ∧
    (predictPhase pts dynamics_fn u dt q).2 =
      reconCov (sigmaPropagate pts dynamics_fn u dt)
        (reconMean (sigmaPropagate pts dynamics_fn u dt)) + q := by
  constructor
  · show accMean (sigmaPropagate pts dynamics_fn u dt) = _
    rw [accMean_eq_reconMean]
  · show accCov (sigmaPropagate pts dynamics_fn u dt)
      (accMean (sigmaPropagate pts dynamics_fn u dt)) + q = _
    rw [accCov_eq_reconCov, accMean_eq_reconMean]

/-- C2: on a successful feed_and_update cycle the Kalman gain K solves
K·Pyy = Pxy (obtained from the decomposition-based solve, not an explicit
inverse), and the engine commits x̂ = x̂⁻ + K·(measured_y − ŷ),
P = P⁻ − K·Pyy·Kᵗ, and the measurement's timestamp as the new estimate. -/
theorem C2_update_gain_and_commit {n m ι : ℕ} (k : UKF n m ι) (ms : MatSqrt n)
    (ls : LinSolve n m) (y : Vec m) (tm : ℚ) (u : Vec ι)
    (h : (feed_and_update k ms ls y tm u).2 = none) :
    ∃ pts pts2 K,
      sample ms k.sampling k.stt.x k.p = .ok pts ∧
      sample ms k.sampling (predictPhase pts k.dynamics u (tm - k.stt.t) k.q).1
        (predictPhase pts k.dynamics u (tm - k.stt.t) k.q).2 = .ok pts2 ∧
      ls.f (accCov (measPoints pts2 k.measure)
          (accMean (measPoints pts2 k.measure)) + k.r)
        (accCross pts2 k.measure
          (predictPhase pts k.dynamics u (tm - k.stt.t) k.q).1
          (accMean (measPoints pts2 k.measure))) = some K ∧
      matMul K (accCov (measPoints pts2 k.measure)
          (accMean (measPoints pts2 k.measure)) + k.r) =
        accCross pts2 k.measure
          (predictPhase pts k.dynamics u (tm - k.stt.t) k.q).1
          (accMean (measPoints pts2 k.measure)) ∧
      (feed_and_update k ms ls y tm u).1.stt.x =
        (predictPhase pts k.dynamics u (tm - k.stt.t) k.q).1
          + matVecMul K (y - accMean (measPoints pts2 k.measure)) ∧
      (feed_and_update k ms ls y tm u).1.p =
        (predictPhase pts k.dynamics u (tm - k.stt.t) k.q).2
          - matMul (matMul K (accCov (measPoints pts2 k.measure)
              (accMean (measPoints pts2 k.measure)) + k.r)) (matTrans K) ∧
      (feed_and_update k ms ls y tm u).1.stt.t = tm := by
  cases h1 : sample ms k.sampling k.stt.x k.p with
  | error e =>
    have hfe : feed_and_update k ms ls y tm u = (k, some e) := by
      simp only [feed_and_update, h1]
    rw [hfe] at h
    exact absurd h (by simp)
  | ok pts =>
    cases h2 : sample ms k.sampling
        (predictPhase pts k.dynamics u (tm - k.stt.t) k.q).1
        (predictPhase pts k.dynamics u (tm - k.stt.t) k.q).2 with
    | error e =>
      have hfe : feed_and_update k ms ls y tm u = (k, some e) := by
        simp only [feed_and_update, h1, h2]
      rw [hfe] at h
      exact absurd h (by simp)
    | ok pts2 =>
      cases h3 : ls.f (accCov (measPoints pts2 k.measure)
          (accMean (measPoints pts2 k.measure)) + k.r)
          (accCross pts2 k.measure
            (predictPhase pts k.dynamics u (tm - k.stt.t) k.q).1
            (accMean (measPoints pts2 k.measure))) with
      | none =>
        have hfe : feed_and_update k ms ls y tm u =
            (k, some .NumericalFailure) := by
          simp only [feed_and_update, h1, h2, h3]
        rw [hfe] at h
        exact absurd h (by simp)
      | some K =>
        have hfe : feed_and_update k ms ls y tm u =
            ({ k with
                stt := ⟨(predictPhase pts k.dynamics u (tm - k.stt.t) k.q).1
                  + matVecMul K (y - accMean (measPoints pts2 k.measure)), tm⟩,
                p := (predictPhase pts k.dynamics u (tm - k.stt.t) k.q).2
                  - matMul (matMul K (accCov (measPoints pts2 k.measure)
                      (accMean (measPoints pts2 k.measure)) + k.r))
                    (matTrans K) }, none) := by
          simp only [feed_and_update, h1, h2, h3]
        exact ⟨pts, pts2, K, rfl, h2, h3, ls.spec _ _ _ h3,
          by rw [hfe], by rw [hfe], by rw [hfe]⟩

/-- C2 witness: the concrete one-dimensional run succeeds and therefore
satisfies the gain equation and the commit equations. -/
theorem C2_update_gain_and_commit_witness :
    ∃ pts pts2 K,
      sample msW1 k0.sampling k0.stt.x k0.p = .ok pts ∧
      sample msW1 k0.sampling
        (predictPhase pts k0.dynamics vzero ((1:ℚ) - k0.stt.t) k0.q).1
        (predictPhase pts k0.dynamics vzero ((1:ℚ) - k0.stt.t) k0.q).2 =
          .ok pts2 ∧
      lsW1.f (accCov (measPoints pts2 k0.measure)
          (accMean (measPoints pts2 k0.measure)) + k0.r)
        (accCross pts2 k0.measure
          (predictPhase pts k0.dynamics vzero ((1:ℚ) - k0.stt.t) k0.q).1
          (accMean (measPoints pts2 k0.measure))) = some K ∧
      matMul K (accCov (measPoints pts2 k0.measure)
          (accMean (measPoints pts2 k0.measure)) + k0.r) =
        accCross pts2 k0.measure
          (predictPhase pts k0.dynamics vzero ((1:ℚ) - k0.stt.t) k0.q).1
          (accMean (measPoints pts2 k0.measure)) ∧
      (feed_and_update k0 msW1 lsW1 vzero 1 vzero).1.stt.x =
        (predictPhase pts k0.dynamics vzero ((1:ℚ) - k0.stt.t) k0.q).1
          + matVecMul K (vzero - accMean (measPoints pts2 k0.measure)) ∧
      (feed_and_update k0 msW1 lsW1 vzero 1 vzero).1.p =
        (predictPhase pts k0.dynamics vzero ((1:ℚ) - k0.stt.t) k0.q).2
          - matMul (matMul K (accCov (measPoints pts2 k0.measure)
              (accMean (measPoints pts2 k0.measure)) + k0.r)) (matTrans K) ∧
      (feed_and_update k0 msW1 lsW1 vzero 1 vzero).1.stt.t = 1 :=
  C2_update_gain_and_commit k0 msW1 lsW1 vzero 1 vzero (by rw [feedEvalW])

/-- C3: whenever feed_and_update fails, the reported error is the numerical
failure of an internal decomposition and the engine is exactly as it was
before the call: state, covariance and epoch are untouched. -/
theorem C3_failure_leaves_engine_unchanged {n m ι : ℕ} (k : UKF n m ι)
    (ms : MatSqrt n) (ls : LinSolve n m) (y : Vec m) (tm : ℚ) (u : Vec ι)
    (e : YakfError) (h : (feed_and_update k ms ls y tm u).2 = some e) :
    e = .NumericalFailure ∧ (feed_and_update k ms ls y tm u).1 = k := by
  cases h1 : sample ms k.sampling k.stt.x k.p with
  | error e' =>
    have hfe : feed_and_update k ms ls y tm u = (k, some e') := by
      simp only [feed_and_update, h1]
    rw [hfe] at h ⊢
    refine ⟨?_, rfl⟩
    rw [← Option.some.inj h]
    exact sample_error ms k.sampling k.stt.x k.p e' h1
  | ok pts =>
    cases h2 : sample ms k.sampling
        (predictPhase pts k.dynamics u (tm - k.stt.t) k.q).1
        (predictPhase pts k.dynamics u (tm - k.stt.t) k.q).2 with
    | error e' =>
      have hfe : feed_and_update k ms ls y tm u = (k, some e') := by
        simp only [feed_and_update, h1, h2]
      rw [hfe] at h ⊢
      refine ⟨?_, rfl⟩
      rw [← Option.some.inj h]
      exact sample_error ms k.sampling _ _ e' h2
    | ok pts2 =>
      cases h3 : ls.f (accCov (measPoints pts2 k.measure)
          (accMean (measPoints pts2 k.measure)) + k.r)
          (accCross pts2 k.measure
            (predictPhase pts k.dynamics u (tm - k.stt.t) k.q).1
            (accMean (measPoints pts2 k.measure))) with
      | none =>
        have hfe : feed_and_update k ms ls y tm u =
            (k, some .NumericalFailure) := by
          simp only [feed_and_update, h1, h2, h3]
        rw [hfe] at h ⊢
        exact ⟨(Option.some.inj h).symm, rfl⟩
      | some K =>
        have hfe : feed_and_update k ms ls y tm u =
            ({ k with
                stt := ⟨(predictPhase pts k.dynamics u (tm - k.stt.t) k.q).1
                  + matVecMul K (y - accMean (measPoints pts2 k.measure)), tm⟩,
                p := (predictPhase pts k.dynamics u (tm - k.stt.t) k.q).2
                  - matMul (matMul K (accCov (measPoints pts2 k.measure)
                      (accMean (measPoints pts2 k.measure)) + k.r))
                    (matTrans K) }, none) := by
          simp only [feed_and_update, h1, h2, h3]
        rw [hfe] at h
        exact absurd h (by simp)

/-- C3 witness: with a square-root collaborator that rejects every matrix,
the concrete call reports the numerical failure and returns the engine
untouched. -/
theorem C3_failure_leaves_engine_unchanged_witness :
    YakfError.NumericalFailure = YakfError.NumericalFailure ∧
    (feed_and_update k0 msNone lsW1 vzero 1 vzero).1 = k0 :=
  C3_failure_leaves_engine_unchanged k0 msNone lsW1 vzero 1 vzero
    .NumericalFailure (by rw [feedNoneEval])

/-- C4: for every valid sampling configuration and dimension, a successful
sample(mean, covariance) yields mean-weights summing to 1, and the weighted
reconstruction of the returned points under the identity transform
reproduces the input mean and the input covariance exactly. -/
theorem C4_reconstruction_identity {n : ℕ} (ms : MatSqrt n) (s : Sampling n)
    (mean : Vec n) (p : Mat n n) (pts : List (ℚ × ℚ × Vec n))
    (hv : SamplingValid s) (hs : sample ms s mean p = .ok pts) :
    weightSum pts = 1 ∧ reconMean pts = mean ∧ reconCov pts mean = p := by
  cases s with
  | minimalSkewSimplex w0 => exact msss_recon ms w0 mean p pts hs
  | symmetricallyDistributed a b lam =>
    exact sds_recon ms a b lam mean p pts hv hs

/-- C4 witness: the concrete symmetric sampling of (0, [1]) in dimension 1
reconstructs its inputs. -/
theorem C4_reconstruction_identity_witness :
    weightSum ptsW = 1 ∧ reconMean ptsW = vzero ∧ reconCov ptsW vzero = oneM :=
  C4_reconstruction_identity msW1 sdsW vzero oneM ptsW
    (by rw [sdsW]; show (0:ℚ) < ((1:ℕ) : ℚ) + 0; norm_num) sampleEvalW

/-- C5: a successful sample returns exactly n+2 weighted points for the
minimal-skew simplex variant and exactly 2n+1 for the symmetric-distribution
variant. -/
theorem C5_point_count {n : ℕ} (ms : MatSqrt n) (s : Sampling n)
    (mean : Vec n) (p : Mat n n) (pts : List (ℚ × ℚ × Vec n))
    (hs : sample ms s mean p = .ok pts) :
    pts.length = match s with
      | .minimalSkewSimplex _ => n + 2
      | .symmetricallyDistributed _ _ _ => 2 * n + 1 := by
  cases s with
  | minimalSkewSimplex w0 => exact msss_length ms w0 mean p pts hs
  | symmetricallyDistributed a b lam => exact sds_length ms a b lam mean p pts hs

/-- C5 witness: the concrete symmetric sampling in dimension 1 returns
2·1+1 = 3 points. -/
theorem C5_point_count_witness : ptsW.length = 2 * 1 + 1 :=
  C5_point_count msW1 sdsW vzero oneM ptsW sampleEvalW

/-- C6: MinimalSkewSimplexSampling::build(w0) succeeds for every w0 strictly
between 0 and 1, and returns the invalid-parameter error value whenever w0
is outside the open interval (0,1). -/
theorem C6_msss_build_validation (n : ℕ) (w0 : ℚ) :
    (0 < w0 → w0 < 1 →
      MinimalSkewSimplexSampling.build n w0 = .ok (.minimalSkewSimplex w0)) ∧
    (¬ (0 < w0 ∧ w0 < 1) →
      MinimalSkewSimplexSampling.build n w0 = .error .InvalidSamplingParameter) := by
  constructor
  · intro h1 h2
    rw [MinimalSkewSimplexSampling.build, if_pos ⟨h1, h2⟩]
  · intro h
    rw [MinimalSkewSimplexSampling.build, if_neg h]

/-- C6 witness: w0 = 1/2 succeeds, w0 = 3/2 is rejected. -/
theorem C6_msss_build_validation_witness :
    MinimalSkewSimplexSampling.build 2 (1/2) = .ok (.minimalSkewSimplex (1/2)) ∧
    MinimalSkewSimplexSampling.build 2 (3/2) = .error .InvalidSamplingParameter :=
  ⟨(C6_msss_build_validation 2 (1/2)).1 (by norm_num) (by norm_num),
   (C6_msss_build_validation 2 (3/2)).2 (by norm_num)⟩

/-- C7: SymmetricallyDistributedSampling::build returns the configuration
error value exactly when the derived scaling λ makes n+λ ≤ 0 (which would
make the matrix square root undefined), and otherwise succeeds. -/
theorem C7_sds_build_validation (n : ℕ) (a : ℚ) (b k : Option ℚ) :
    ((n : ℚ) + sdsLambda n a k ≤ 0 →
      SymmetricallyDistributedSampling.build n a b k =
        .error .InvalidSamplingParameter) ∧
    (0 < (n : ℚ) + sdsLambda n a k →
      SymmetricallyDistributedSampling.build n a b k =
        .ok (.symmetricallyDistributed a (b.getD 2) (sdsLambda n a k))) := by
  constructor
  · intro h
    rw [SymmetricallyDistributedSampling.build, if_pos h]
  · intro h
    rw [SymmetricallyDistributedSampling.build, if_neg (not_le.mpr h)]

/-- C7 witness: n = 1 with scale parameter a = 0 gives λ = −1, so n+λ = 0
and construction is rejected with the configuration error. -/
theorem C7_sds_build_validation_witness :
    SymmetricallyDistributedSampling.build 1 0 none none =
      .error .InvalidSamplingParameter :=
  (C7_sds_build_validation 1 0 none none).1 (by norm_num [sdsLambda])

/-- C8 counterexample to the claim as stated: a measurement whose epoch (0)
is not strictly greater than the current estimate's epoch (0) is accepted
and processed — the call returns no error and commits the measurement's
epoch — rather than being rejected. -/
theorem C8_not_rejected_counterexample :
    epoch (UKF.current_estimate k0) = 0 ∧
    (feed_and_update k0 msW1 lsW1 vzero 0 vzero).2 = none ∧
    epoch (feed_and_update k0 msW1 lsW1 vzero 0 vzero).1.stt = 0 :=
  ⟨rfl, by rw [feedEvalW], by rw [feedEvalW]; rfl⟩

/-- C8 amended: the engine performs no ordering check on the measurement
epoch: every call either succeeds (committing the measurement's epoch,
whatever its relation to the current epoch) or fails with the numerical
error of a decomposition; monotonic arrival is a documented precondition
left to the caller. -/
theorem C8_no_ordering_check {n m ι : ℕ} (k : UKF n m ι) (ms : MatSqrt n)
    (ls : LinSolve n m) (y : Vec m) (tm : ℚ) (u : Vec ι) :
    ((feed_and_update k ms ls y tm u).2 = none ∨
     (feed_and_update k ms ls y tm u).2 = some .NumericalFailure) ∧
    ((feed_and_update k ms ls y tm u).2 = none →
      (feed_and_update k ms ls y tm u).1.stt.t = tm) := by
  cases h1 : sample ms k.sampling k.stt.x k.p with
  | error e =>
    have hfe : feed_and_update k ms ls y tm u = (k, some e) := by
      simp only [feed_and_update, h1]
    rw [hfe]
    refine ⟨Or.inr ?_, fun hc => absurd hc (by simp)⟩
    rw [sample_error ms k.sampling k.stt.x k.p e h1]
  | ok pts =>
    cases h2 : sample ms k.sampling
        (predictPhase pts k.dynamics u (tm - k.stt.t) k.q).1
        (predictPhase pts k.dynamics u (tm - k.stt.t) k.q).2 with
    | error e =>
      have hfe : feed_and_update k ms ls y tm u = (k, some e) := by
        simp only [feed_and_update, h1, h2]
      rw [hfe]
      refine ⟨Or.inr ?_, fun hc => absurd hc (by simp)⟩
      rw [sample_error ms k.sampling _ _ e h2]
    | ok pts2 =>
      cases h3 : ls.f (accCov (measPoints pts2 k.measure)
          (accMean (measPoints pts2 k.measure)) + k.r)
          (accCross pts2 k.measure
            (predictPhase pts k.dynamics u (tm - k.stt.t) k.q).1
            (accMean (measPoints pts2 k.measure))) with
      | none =>
        have hfe : feed_and_update k ms ls y tm u =
            (k, some .NumericalFailure) := by
          simp only [feed_and_update, h1, h2, h3]
        rw [hfe]
        exact ⟨Or.inr rfl, fun hc => absurd hc (by simp)⟩
      | some K =>
        have hfe : feed_and_update k ms ls y tm u =
            ({ k with
                stt := ⟨(predictPhase pts k.dynamics u (tm - k.stt.t) k.q).1
                  + matVecMul K (y - accMean (measPoints pts2 k.measure)), tm⟩,
                p := (predictPhase pts k.dynamics u (tm - k.stt.t) k.q).2
                  - matMul (matMul K (accCov (measPoints pts2 k.measure)
                      (accMean (measPoints pts2 k.measure)) + k.r))
                    (matTrans K) }, none) := by
          simp only [feed_and_update, h1, h2, h3]
        rw [hfe]
        exact ⟨Or.inl rfl, fun _ => rfl⟩

/-- C9: propagate(dynamics_fn, dt, exogenous_input) overwrites the state
vector with dynamics_fn(current_state, exogenous_input, dt) and advances the
timestamp by exactly dt; it is a total operation with no failure mode of its
own. -/
theorem C9_propagate_spec {n ι : ℕ} (s : KState n)
    (dynamics_fn : Vec n → Vec ι → ℚ → Vec n) (dt : ℚ) (u : Vec ι) :
    state (propagate s dynamics_fn dt u) = dynamics_fn (state s) u dt ∧
    epoch (propagate s dynamics_fn dt u) = epoch s + dt :=
  ⟨rfl, rfl⟩

/-- C10: immediately after UKF::build and before any feed_and_update call,
current_estimate() returns exactly the supplied initial state: the same
vector and the same epoch. -/
theorem C10_build_initial_estimate {n m ι : ℕ}
    (dynamics_fn : Vec n → Vec ι → ℚ → Vec n) (measurement_fn : Vec n → Vec m)
    (s : Sampling n) (initial : KState n) (p0 q : Mat n n) (r : Mat m m) :
    state (UKF.current_estimate
        (UKF.build dynamics_fn measurement_fn s initial p0 q r)) =
      state initial ∧
    epoch (UKF.current_estimate
        (UKF.build dynamics_fn measurement_fn s initial p0 q r)) =
      epoch initial :=
  ⟨rfl, rfl⟩
